import Mathlib

/-!
Verification development for the nimiqode encode/decode engine
(`src/gulpfile.js`, class `Nimiqode`).

The engine orchestrates: ring sizing (`_createHexagonRings`), the encode
pipeline (`_constructFromPayload`), the decode pipeline
(`_constructFromScan`), masking orchestration (`_maskHexagonRings`) and
ring data assignment (`assignHexagonRingData`).

Collaborators (`NimiqodeSpecification`, `BitArray`, `CRC16`, `LDPC`,
`NimiqodeHeader`, `HexagonRing`, `Masking`) are not part of the provided
source; they are modelled from the specification's contracts, each marked
with a doc comment starting `Modelled from the spec:`.

Bit streams are `List Bool`, byte sequences are `List Nat` (each entry a
byte value `< 256`), the error-correction factor is `ℚ` (JavaScript float
arithmetic on small non-negative factors is abstracted as exact rational
arithmetic), and machine integers are `Nat`.
-/

/-- Error taxonomy of the engine, following the specification's section 7
(the source throws plain `Error` values with messages; the spec classifies
the encode-entry payload/factor/version violations as `InvalidArgument`). -/
inductive Err where
  | invalidArgument
  | payloadTooLarge
  | unsupportedVersion
  | lengthMismatch
  | fecDecodeFailure
  | checksumMismatch
  deriving DecidableEq, Repr

/-- Modelled from the spec: the Bit Buffer collaborator's fixed bit order.
Serialize a natural number into `w` bits, least significant bit first. -/
def toBitsLE : Nat → Nat → List Bool
  | 0, _ => []
  | w + 1, x => (x % 2 == 1) :: toBitsLE w (x / 2)

/-- Modelled from the spec: inverse direction of `toBitsLE`. -/
def fromBitsLE : List Bool → Nat
  | [] => 0
  | b :: r => (if b then 1 else 0) + 2 * fromBitsLE r

/-- Modelled from the spec: `BitArray(payload)` views a byte sequence as a
bit stream, eight bits per byte. -/
def bytesToBits (bs : List Nat) : List Bool :=
  (bs.map (toBitsLE 8)).flatten

/-- Modelled from the spec: repack `n` bytes out of a bit stream (the
decode pipeline writes recovered bits into a fresh byte-aligned buffer). -/
def bytesOf : Nat → List Bool → List Nat
  | 0, _ => []
  | n + 1, l => fromBitsLE (l.take 8) :: bytesOf n (l.drop 8)

namespace NimiqodeSpecification

/-- Modelled from the spec: the single supported format version
(`NimiqodeSpecification.CURRENT_VERSION`; the decode pipeline compares the
parsed version against the literal `0`). -/
def CURRENT_VERSION : Nat := 0

/-- Modelled from the spec: upper bound of the closed valid range of the
error-correction factor (`MAX_FACTOR_ERROR_CORRECTION_DATA`; the spec
gives no numeric value, the model fixes a concrete one). -/
def MAX_FACTOR_ERROR_CORRECTION_DATA : ℚ := 2

/-- Modelled from the spec: the format constant named
`HEADER_LENGTH_PAYLOAD_LENGTH` consumed by the encode entry's size gate
(the spec gives no numeric value, the model fixes a concrete one). -/
def HEADER_LENGTH_PAYLOAD_LENGTH : Nat := 12

end NimiqodeSpecification

namespace CRC16

/-- Modelled from the spec: the Checksum Provider computes a deterministic
pure 16-bit checksum over the raw payload bytes; the internal arithmetic
is out of scope, so any fixed function with values `< 2 ^ 16` is a
faithful model. -/
def crc16 (bs : List Nat) : Nat :=
  bs.foldl (fun a b => (a * 31 + b) % 65536) 0

end CRC16

namespace LDPC

/-- Modelled from the spec: parity bit `i` of the systematic
forward-error-correction code (internal algorithm out of scope; the model
derives each parity bit from the payload bits). -/
def parityBit (bits : List Bool) (i : Nat) : Bool :=
  bits.getD (i % max 1 bits.length) false

/-- Modelled from the spec: FEC encode returns the payload bits
concatenated with `ecLength` parity bits. -/
def encode (bits : List Bool) (ecLength : Nat) : List Bool :=
  bits ++ (List.range ecLength).map (parityBit bits)

/-- Modelled from the spec: FEC decode takes the full received bit
sequence plus the known payload and parity lengths and returns the
recovered payload bits, or a failure when the parity check cannot be
satisfied. -/
def decode (received : List Bool) (payloadLength ecLength : Nat) :
    Option (List Bool) :=
  if received.length = payloadLength + ecLength ∧
      received.drop payloadLength =
        (List.range ecLength).map (parityBit (received.take payloadLength)) then
    some (received.take payloadLength)
  else
    none

end LDPC

namespace Masking

/-- Modelled from the spec: bit `j` of mask pattern `m`; the Mask Selector
applies mask `m` as an XOR of this pattern over a bit range (pattern shape
is a format detail out of scope; four mask identifiers exist, pattern `0`
being the all-clear pattern). -/
def maskBit : Nat → Nat → Bool
  | 0, _ => false
  | 1, j => j % 2 == 0
  | 2, j => j % 3 == 0
  | _, j => j % 2 == 1

/-- XOR a bit list against mask pattern `m` (positions relative to the
start of the list), for an arbitrary pattern family `mb`. -/
def xorSlice (mb : Nat → Nat → Bool) (m : Nat) (l : List Bool) : List Bool :=
  List.zipWith xor l ((List.range l.length).map (mb m))

/-- Modelled from the spec: the Mask Selector's search heuristic; the model
scores each of the four masks by the number of set bits left after
application and keeps the best one. -/
def maskScore (l : List Bool) (m : Nat) : Nat :=
  (xorSlice maskBit m l).count true

/-- Modelled from the spec: `Masking.findBestMask` returns the identifier
judged best for the given bit range. -/
def findBestMask (l : List Bool) : Nat :=
  (List.range 4).foldl (fun best m => if maskScore l m < maskScore l best then m else best) 0

end Masking

/-- Parsed header fields: version, payload bit-length, error-correction
bit-length, checksum, and one mask identifier per masked ring. -/
structure HeaderFields where
  version : Nat
  payloadLength : Nat
  ecLength : Nat
  checksum : Nat
  masks : List Nat
  deriving DecidableEq, Repr

namespace NimiqodeHeader

/-- Modelled from the spec: `NimiqodeHeader.calculateMaskCount`, a pure
function of the ring set's shape only; the model masks one ring per ring
of the set (a ring set is determined by its ring count since each ring's
capacity is a pure function of its index). -/
def calculateMaskCount (ringCount : Nat) : Nat := ringCount

/-- Modelled from the spec: `NimiqodeHeader.calculateLength`, the header's
total bit length for a given mask count: fixed-width fields (2 version
bits, 16 payload-length bits, 24 error-correction-length bits, 16 checksum
bits) plus 2 bits per stored mask identifier. -/
def calculateLength (maskCount : Nat) : Nat := 58 + 2 * maskCount

/-- Modelled from the spec: `NimiqodeHeader.write` serializes version,
payload bit-length, error-correction bit-length, checksum and the mask
identifier list into the header region. -/
def write (version payloadLength ecLength checksum : Nat) (masks : List Nat) :
    List Bool :=
  toBitsLE 2 version ++ toBitsLE 16 payloadLength ++ toBitsLE 24 ecLength ++
    toBitsLE 16 checksum ++ (masks.map (toBitsLE 2)).flatten

/-- Modelled from the spec: `NimiqodeHeader.read` parses the header region
back into its fields, taking the mask count from the ring set's shape. -/
def read (l : List Bool) (maskCount : Nat) : HeaderFields :=
  { version := fromBitsLE (l.take 2)
    payloadLength := fromBitsLE ((l.drop 2).take 16)
    ecLength := fromBitsLE (((l.drop 2).drop 16).take 24)
    checksum := fromBitsLE ((((l.drop 2).drop 16).drop 24).take 16)
    masks := (List.range maskCount).map fun i =>
      fromBitsLE ((((((l.drop 2).drop 16).drop 24).drop 16).drop (2 * i)).take 2) }

end NimiqodeHeader

/-- Modelled from the spec: `HexagonRing` bit capacity as a pure function
of the ring index (index 0 innermost; capacity grows with the radius,
which grows linearly with the index; the geometric derivation is out of
scope, the core treats each capacity as an opaque positive integer). -/
def hexRingBitCount (index : Nat) : Nat := 56 + 16 * index

namespace Nimiqode

/-- Clamped start offset of a masked ring's sub-range, mirroring the
source's `Math.max(0, hexRingEnd - ring.bitCount)` (line 163). -/
def clampStart (hexRingEnd bitCount : Nat) : Nat :=
  (max 0 ((hexRingEnd : Int) - (bitCount : Int))).toNat

/-- Replace the sub-range `[s, e)` of `d` by its XOR with mask pattern
`m` (pattern positions relative to the sub-range start), leaving the rest
of `d` unchanged; this is `Masking.applyMask(mask, hexRingDataToMask)`
acting through a `BitArray` sub-range view (source line 163-165). -/
def applyMaskRange (mb : Nat → Nat → Bool) (m s e : Nat) (d : List Bool) :
    List Bool :=
  d.take s ++ Masking.xorSlice mb m ((d.drop s).take (e - s)) ++ d.drop e

/-- Loop body of `_maskHexagonRings` (source lines 160-168), processing
the masked rings outermost-first: `caps` lists the masked rings' bit
capacities in processing order, `given` holds the caller-supplied mask
identifiers in processing order (decode direction) or is `none` (encode
direction, selecting masks via `fb`), `e` is the running `hexRingEnd`.
Returns the applied mask identifiers in processing order together with
the transformed data. -/
def maskLoopP (mb : Nat → Nat → Bool) (fb : List Bool → Nat) :
    List Nat → Option (List Nat) → Nat → List Bool → List Nat × List Bool
  | [], _, _, d => ([], d)
  | c :: caps, g, e, d =>
    let s := clampStart e c
    let m := match g with
      | some ms => ms.headD 0
      | none => fb ((d.drop s).take (e - s))
    let d1 := applyMaskRange mb m s e d
    let r := maskLoopP mb fb caps (g.map List.tail) s d1
    (m :: r.1, r.2)

/-- Engine method `_maskHexagonRings(maskCountOrMasks, dataToMask)`
(source lines 155-170): masks the trailing window of `maskCount` rings of
a `ringCount`-ring set, walking backward from the end of `dataToMask`
(ring `ringCount - 1 - i` at step `i`); caller-supplied identifiers are
consumed from the back of the given list, and the collected identifiers
are returned in innermost-to-outermost order (`unshift`). The ring
capacity function is a parameter, as the rings are externally supplied
objects. -/
def maskHexagonRings (cap : Nat → Nat) (mb : Nat → Nat → Bool)
    (fb : List Bool → Nat) (ringCount maskCount : Nat)
    (givenMasks : Option (List Nat)) (dataToMask : List Bool) :
    List Nat × List Bool :=
  let caps := (List.range maskCount).map fun i => cap (ringCount - 1 - i)
  let r := maskLoopP mb fb caps (givenMasks.map List.reverse)
    dataToMask.length dataToMask
  (r.1.reverse, r.2)

/-- Expected shape of the masked trailing window: split `d` into
consecutive chunks whose sizes are given innermost-first, XOR chunk `j`
with mask pattern `ms[j]`. Used to state what `_maskHexagonRings` does. -/
def xorChunks (mb : Nat → Nat → Bool) : List Nat → List Nat → List Bool → List Bool
  | [], _, d => d
  | _ :: _, [], d => d
  | c :: cs, m :: ms, d =>
      Masking.xorSlice mb m (d.take c) ++ xorChunks mb cs ms (d.drop c)

/-- Static helper `Nimiqode.calculateLength(hexRings, lengthPayload,
lengthErrorCorrection)` (source lines 115-118): header length for the ring
set's mask count plus payload and error-correction lengths. A ring set is
represented by its ring count, capacities being a pure function of ring
index. -/
def calculateLength (ringCount payloadLength ecLength : Nat) : Nat :=
  NimiqodeHeader.calculateLength (NimiqodeHeader.calculateMaskCount ringCount) +
    payloadLength + ecLength

/-- Summed bit capacity of the first `n` rings (the `totalBits`
accumulator of `_createHexagonRings`). -/
def totalCap (cap : Nat → Nat) (n : Nat) : Nat :=
  ((List.range n).map cap).sum

/-- Loop of `_createHexagonRings` (source lines 136-142): starting from
one ring, keep appending rings while the accumulated capacity is below
the recomputed target length or fewer than two rings exist. The fuel
argument makes the function total; for the modelled ring capacities the
provided fuel is always sufficient (`createHexagonRings_spec`), so the
model coincides with the source's unbounded loop. -/
def sizeLoop (cap : Nat → Nat) (payloadLength ecLength : Nat) :
    Nat → Nat → Nat
  | 0, n => n
  | fuel + 1, n =>
      if 2 ≤ n ∧ calculateLength n payloadLength ecLength ≤ totalCap cap n then n
      else sizeLoop cap payloadLength ecLength fuel (n + 1)

/-- Engine method `_createHexagonRings(payloadLength, errorCorrectionLength)`
(source lines 133-144), returning the resulting ring count (the method's
return value `totalBits` is `totalCap cap` of this count). -/
def createHexagonRings (cap : Nat → Nat) (payloadLength ecLength : Nat) : Nat :=
  sizeLoop cap payloadLength ecLength (payloadLength + ecLength + 4) 1

/-- Result of a successful encode: the constructed engine instance's ring
count, the header length, the final error-correction length, the chosen
mask identifiers (innermost-to-outermost) and the full bit stream
`this._data`. -/
structure EncodeResult where
  ringCount : Nat
  headerLength : Nat
  ecLength : Nat
  masks : List Nat
  data : List Bool
  deriving DecidableEq, Repr

/-- Success branch of `_constructFromPayload` (source lines 42-69): build
the bit arrays, FEC-encode the payload into the payload+parity region,
mask the hexagon rings and write the header. The final data stream is the
header region followed by the masked payload+parity region, exactly as the
shared backing `BitArray` ends up after the in-place writes. Ring
capacities (`cap`), mask patterns (`mb`) and the mask search (`fb`) are
collaborator parameters. -/
def constructFromPayloadCore (cap : Nat → Nat) (mb : Nat → Nat → Bool)
    (fb : List Bool → Nat) (payload : List Nat) (errorCorrectionFactor : ℚ)
    (version : Nat) : EncodeResult :=
  let payloadBitLength := payload.length * 8
  let preliminaryErrorCorrectionLength :=
    (Int.ceil ((payloadBitLength : ℚ) * errorCorrectionFactor)).toNat
  let n := createHexagonRings cap payloadBitLength preliminaryErrorCorrectionLength
  let dataLength := totalCap cap n
  let hexRingMaskCount := NimiqodeHeader.calculateMaskCount n
  let headerLength := NimiqodeHeader.calculateLength hexRingMaskCount
  let errorCorrectionLength := dataLength - headerLength - payloadBitLength
  let encodedPayloadBits := LDPC.encode (bytesToBits payload) errorCorrectionLength
  let masked := maskHexagonRings cap mb fb n hexRingMaskCount none encodedPayloadBits
  let checksum := CRC16.crc16 payload
  let header := NimiqodeHeader.write version payloadBitLength errorCorrectionLength
    checksum masked.1
  { ringCount := n
    headerLength := headerLength
    ecLength := errorCorrectionLength
    masks := masked.1
    data := header ++ masked.2 }

/-- Engine method `_constructFromPayload(payload, errorCorrectionFactor,
version)` (source lines 30-70): the three entry guards followed by the
construction pipeline. The `payload instanceof Uint8Array` check is
vacuous in the typed model. -/
def constructFromPayload (cap : Nat → Nat) (mb : Nat → Nat → Bool)
    (fb : List Bool → Nat) (payload : List Nat) (errorCorrectionFactor : ℚ)
    (version : Nat) : Except Err EncodeResult :=
  if version ≠ NimiqodeSpecification.CURRENT_VERSION ∨ payload.length = 0 then
    .error .invalidArgument
  else if errorCorrectionFactor < 0 ∨
      NimiqodeSpecification.MAX_FACTOR_ERROR_CORRECTION_DATA < errorCorrectionFactor then
    .error .invalidArgument
  else if 2 ^ NimiqodeSpecification.HEADER_LENGTH_PAYLOAD_LENGTH * 8 <
      payload.length * 8 then
    .error .payloadTooLarge
  else
    .ok (constructFromPayloadCore cap mb fb payload errorCorrectionFactor version)

/-- Encode entry of the engine with the concrete collaborators. -/
def encode (payload : List Nat) (errorCorrectionFactor : ℚ) (version : Nat) :
    Except Err EncodeResult :=
  constructFromPayload hexRingBitCount Masking.maskBit Masking.findBestMask
    payload errorCorrectionFactor version

/-- Engine method `_constructFromScan(hexagonRings, data)` (source lines
72-105): parse the header, check version and length, unmask a snapshot of
the payload+parity region, FEC-decode and verify the checksum. The FEC
decoder (`fec`) and the mask patterns (`mb`) are collaborator
parameters. -/
def constructFromScan (cap : Nat → Nat) (mb : Nat → Nat → Bool)
    (fec : List Bool → Nat → Nat → Option (List Bool)) (ringCount : Nat)
    (data : List Bool) : Except Err (List Nat) :=
  let hexRingMaskCount := NimiqodeHeader.calculateMaskCount ringCount
  let headerLength := NimiqodeHeader.calculateLength hexRingMaskCount
  let h := NimiqodeHeader.read (data.take headerLength) hexRingMaskCount
  if h.version ≠ 0 then .error .unsupportedVersion
  else if headerLength + h.payloadLength + h.ecLength ≠ data.length then
    .error .lengthMismatch
  else
    let encodedPayload := data.drop headerLength
    let unmasked := (maskHexagonRings cap mb Masking.findBestMask ringCount
      hexRingMaskCount (some h.masks) encodedPayload).2
    match fec unmasked h.payloadLength h.ecLength with
    | none => .error .fecDecodeFailure
    | some payloadBits =>
        let payload := bytesOf (h.payloadLength / 8) payloadBits
        if CRC16.crc16 payload ≠ h.checksum then .error .checksumMismatch
        else .ok payload

/-- Decode entry of the engine with the concrete collaborators. -/
def decodeScan (ringCount : Nat) (data : List Bool) : Except Err (List Nat) :=
  constructFromScan hexRingBitCount Masking.maskBit LDPC.decode ringCount data

/-- Static method `assignHexagonRingData(hexagonRings, data)` (source
lines 146-152): slice the full bit stream into consecutive per-ring
sub-ranges, in ring order, one slice of `cap i` bits per ring `i`. -/
def assignHexagonRingData (cap : Nat → Nat) : Nat → List Bool → List (List Bool)
  | 0, _ => []
  | n + 1, data =>
      data.take (cap 0) ::
        assignHexagonRingData (fun i => cap (i + 1)) n (data.drop (cap 0))

/-- Variant of `_constructFromScan` that additionally returns the caller's
bit-stream buffer as it stands after the call, making the `BitArray` copy
semantics of source line 87 explicit: the engine takes the payload+parity
sub-range as a copy (`copySnapshot = true`, the source's fourth `BitArray`
constructor argument) and unmasks that copy, so the caller's buffer is
returned unchanged; with `copySnapshot = false` the unmasking would write
through into the caller's buffer. -/
def constructFromScanBuffered (cap : Nat → Nat) (mb : Nat → Nat → Bool)
    (fec : List Bool → Nat → Nat → Option (List Bool)) (copySnapshot : Bool)
    (ringCount : Nat) (data : List Bool) :
    Except Err (List Nat) × List Bool :=
  let hexRingMaskCount := NimiqodeHeader.calculateMaskCount ringCount
  let headerLength := NimiqodeHeader.calculateLength hexRingMaskCount
  let h := NimiqodeHeader.read (data.take headerLength) hexRingMaskCount
  if h.version ≠ 0 then (.error .unsupportedVersion, data)
  else if headerLength + h.payloadLength + h.ecLength ≠ data.length then
    (.error .lengthMismatch, data)
  else
    let encodedPayload := data.drop headerLength
    let unmasked := (maskHexagonRings cap mb Masking.findBestMask ringCount
      hexRingMaskCount (some h.masks) encodedPayload).2
    let buffer := if copySnapshot then data else data.take headerLength ++ unmasked
    match fec unmasked h.payloadLength h.ecLength with
    | none => (.error .fecDecodeFailure, buffer)
    | some payloadBits =>
        let payload := bytesOf (h.payloadLength / 8) payloadBits
        if CRC16.crc16 payload ≠ h.checksum then (.error .checksumMismatch, buffer)
        else (.ok payload, buffer)

end Nimiqode

/-- Success test for an engine construction result. -/
def exceptIsOk {α : Type} : Except Err α → Bool
  | .ok _ => true
  | .error _ => false

/-- Concrete single-ring scan input: a well-formed header declaring
version 0, payload bit-length 8, error-correction length 4, the payload's
checksum and the identity mask, followed by the FEC-encoded payload. -/
def oneRingScanData : List Bool :=
  NimiqodeHeader.write 0 8 4 (CRC16.crc16 [42]) [0] ++
    LDPC.encode (bytesToBits [42]) 4

theorem length_toBitsLE (w x : Nat) : (toBitsLE w x).length = w := by
  induction w generalizing x with
  | zero => rfl
  | succ w ih => simp [toBitsLE, ih]

theorem fromBitsLE_toBitsLE (w x : Nat) (h : x < 2 ^ w) :
    fromBitsLE (toBitsLE w x) = x := by
  induction w generalizing x with
  | zero =>
      simp only [toBitsLE, fromBitsLE]
      omega
  | succ w ih =>
      have hp : 2 ^ (w + 1) = 2 * 2 ^ w := by ring
      have hx : x / 2 < 2 ^ w := by omega
      simp only [toBitsLE, fromBitsLE, ih (x / 2) hx]
      have h2 := Nat.mod_two_eq_zero_or_one x
      rcases h2 with h2 | h2 <;> simp [h2] <;> omega

theorem length_bytesToBits (bs : List Nat) :
    (bytesToBits bs).length = bs.length * 8 := by
  induction bs with
  | nil => rfl
  | cons b t ih =>
      simp [bytesToBits, length_toBitsLE] at *
      omega

theorem bytesOf_bytesToBits (bs : List Nat) (h : ∀ b ∈ bs, b < 256) :
    bytesOf bs.length (bytesToBits bs) = bs := by
  induction bs with
  | nil => rfl
  | cons b t ih =>
      have hb : b < 256 := h b (List.mem_cons_self b t)
      have hl : (toBitsLE 8 b).length = 8 := length_toBitsLE 8 b
      simp only [List.length_cons, bytesToBits, List.map_cons, List.flatten_cons, bytesOf]
      rw [List.take_left' hl, List.drop_left' hl, fromBitsLE_toBitsLE 8 b hb]
      have ht : bytesOf t.length (bytesToBits t) = t :=
        ih (fun x hx => h x (List.mem_cons_of_mem b hx))
      simp only [bytesToBits] at ht
      rw [ht]

namespace CRC16

theorem crc16_lt (bs : List Nat) : crc16 bs < 65536 := by
  suffices h : ∀ a, a < 65536 → bs.foldl (fun a b => (a * 31 + b) % 65536) a < 65536 by
    exact h 0 (by omega)
  induction bs with
  | nil => intro a ha; simpa using ha
  | cons b t ih =>
      intro a _
      simp only [List.foldl_cons]
      exact ih _ (Nat.mod_lt _ (by omega))

end CRC16

namespace LDPC

theorem length_encode (bits : List Bool) (ec : Nat) :
    (encode bits ec).length = bits.length + ec := by
  simp [encode]

theorem decode_encode (bits : List Bool) (ec : Nat) :
    decode (encode bits ec) bits.length ec = some bits := by
  have ht : (encode bits ec).take bits.length = bits := by
    simp [encode]
  have hd : (encode bits ec).drop bits.length =
      (List.range ec).map (parityBit bits) := by
    simp [encode]
  simp [decode, ht, hd, length_encode]

end LDPC

namespace Masking

theorem length_xorSlice (mb : Nat → Nat → Bool) (m : Nat) (l : List Bool) :
    (xorSlice mb m l).length = l.length := by
  simp [xorSlice]

theorem xorSlice_xorSlice (mb : Nat → Nat → Bool) (m : Nat) (l : List Bool) :
    xorSlice mb m (xorSlice mb m l) = l := by
  apply List.ext_getElem
  · simp [length_xorSlice]
  · intro i h1 h2
    simp only [xorSlice, length_xorSlice, List.getElem_zipWith, List.getElem_map,
      List.getElem_range]
    cases l[i] <;> cases mb m i <;> rfl

theorem findBestMask_lt (l : List Bool) : findBestMask l < 4 := by
  suffices h : ∀ (ms : List Nat) (best : Nat), best < 4 → (∀ m ∈ ms, m < 4) →
      ms.foldl (fun best m => if maskScore l m < maskScore l best then m else best) best < 4 by
    apply h
    · omega
    · intro m hm
      simpa using List.mem_range.mp hm
  intro ms
  induction ms with
  | nil => intro best hb _; simpa using hb
  | cons x t ih =>
      intro best hb hm
      simp only [List.foldl_cons]
      by_cases hc : maskScore l x < maskScore l best <;> simp only [hc, if_true, if_false] <;>
        [exact ih x (hm x (List.mem_cons_self x t)) (fun m hmm => hm m (List.mem_cons_of_mem x hmm));
         exact ih best hb (fun m hmm => hm m (List.mem_cons_of_mem x hmm))]

end Masking

namespace NimiqodeHeader

theorem length_write (v pl ec cs : Nat) (ms : List Nat) :
    (write v pl ec cs ms).length = calculateLength ms.length := by
  have hsum : ((ms.map (toBitsLE 2)).map List.length).sum = 2 * ms.length := by
    induction ms with
    | nil => simp
    | cons m r ih =>
        simp only [List.map_cons, List.sum_cons, length_toBitsLE, List.length_cons, ih]
        ring
  simp only [write, calculateLength, List.length_append, length_toBitsLE,
    List.length_flatten, hsum]

theorem mask_extract (ms : List Nat) (t : List Bool) :
    ∀ i, i < ms.length →
      ((((ms.map (toBitsLE 2)).flatten ++ t).drop (2 * i)).take 2) =
        toBitsLE 2 (ms.getD i 0) := by
  induction ms with
  | nil => intro i hi; simp at hi
  | cons m rest ih =>
      intro i hi
      cases i with
      | zero =>
          simp only [List.map_cons, List.flatten_cons, Nat.mul_zero, List.drop_zero,
            List.getD_cons_zero]
          rw [List.append_assoc, List.take_left' (length_toBitsLE 2 m)]
      | succ i =>
          have harith : 2 * (i + 1) = (toBitsLE 2 m).length + 2 * i := by
            rw [length_toBitsLE]; ring
          simp only [List.map_cons, List.flatten_cons, List.append_assoc, harith,
            List.drop_append, List.getD_cons_succ]
          exact ih i (by simpa using hi)

theorem read_write (v pl ec cs : Nat) (ms : List Nat) (t : List Bool)
    (hv : v < 2 ^ 2) (hpl : pl < 2 ^ 16) (hec : ec < 2 ^ 24) (hcs : cs < 2 ^ 16)
    (hms : ∀ m ∈ ms, m < 2 ^ 2) :
    read (write v pl ec cs ms ++ t) ms.length =
      ⟨v, pl, ec, cs, ms⟩ := by
  have h2 := length_toBitsLE 2 v
  have h16 := length_toBitsLE 16 pl
  have h24 := length_toBitsLE 24 ec
  have hcs16 := length_toBitsLE 16 cs
  simp only [write, read, List.append_assoc]
  rw [List.take_left' h2, List.drop_left' h2,
    List.take_left' h16, List.drop_left' h16,
    List.take_left' h24, List.drop_left' h24,
    List.take_left' hcs16, List.drop_left' hcs16]
  simp only [HeaderFields.mk.injEq]
  refine ⟨fromBitsLE_toBitsLE 2 v hv, fromBitsLE_toBitsLE 16 pl hpl,
    fromBitsLE_toBitsLE 24 ec hec, fromBitsLE_toBitsLE 16 cs hcs, ?_⟩
  apply List.ext_getElem
  · simp
  · intro i h1 h2
    have hi : i < ms.length := by simpa using h2
    simp only [List.getElem_map, List.getElem_range]
    rw [mask_extract ms t i hi, fromBitsLE_toBitsLE 2 _ ?_,
      List.getD_eq_getElem ms 0 hi]
    have := hms (ms.getD i 0) ?_
    · exact this
    · rw [List.getD_eq_getElem ms 0 hi]
      exact List.getElem_mem hi

end NimiqodeHeader

namespace Nimiqode

theorem clampStart_eq (e c : Nat) : clampStart e c = e - min c e := by
  simp only [clampStart]
  omega

theorem length_applyMaskRange (mb : Nat → Nat → Bool) (m s e : Nat)
    (d : List Bool) (hs : s ≤ e) (he : e ≤ d.length) :
    (applyMaskRange mb m s e d).length = d.length := by
  simp only [applyMaskRange, List.length_append, Masking.length_xorSlice,
    List.length_take, List.length_drop]
  omega

theorem maskLoopP_masks_length (mb : Nat → Nat → Bool) (fb : List Bool → Nat)
    (caps : List Nat) (g : Option (List Nat)) (e : Nat) (d : List Bool) :
    (maskLoopP mb fb caps g e d).1.length = caps.length := by
  induction caps generalizing g e d with
  | nil => rfl
  | cons c t ih => simp [maskLoopP, ih]

theorem maskLoopP_data_length (mb : Nat → Nat → Bool) (fb : List Bool → Nat)
    (caps : List Nat) (g : Option (List Nat)) (e : Nat) (d : List Bool)
    (he : e ≤ d.length) :
    (maskLoopP mb fb caps g e d).2.length = d.length := by
  induction caps generalizing g e d with
  | nil => rfl
  | cons c t ih =>
      have hs : clampStart e c ≤ e := by rw [clampStart_eq]; omega
      simp only [maskLoopP]
      rw [ih]
      · exact length_applyMaskRange mb _ _ _ d hs he
      · rw [length_applyMaskRange mb _ _ _ d hs he]; omega

theorem maskLoopP_append (mb : Nat → Nat → Bool) (fb : List Bool → Nat)
    (caps : List Nat) :
    ∀ (g : Option (List Nat)) (u t : List Bool),
      maskLoopP mb fb caps g u.length (u ++ t) =
        ((maskLoopP mb fb caps g u.length u).1,
          (maskLoopP mb fb caps g u.length u).2 ++ t) := by
  induction caps with
  | nil => intro g u t; rfl
  | cons c cs ih =>
      intro g u t
      have hs : clampStart u.length c ≤ u.length := by rw [clampStart_eq]; omega
      set s := clampStart u.length c with hsdef
      have hdropapp : (u ++ t).drop s = u.drop s ++ t :=
        List.drop_append_of_le_length hs
      have hdlen : (u.drop s).length = u.length - s := List.length_drop s u
      have hslice : ((u ++ t).drop s).take (u.length - s) = u.drop s := by
        rw [hdropapp, List.take_append_of_le_length (by omega), List.take_of_length_le (by omega)]
      have hsliceu : (u.drop s).take (u.length - s) = u.drop s :=
        List.take_of_length_le (by omega)
      have happly : ∀ m, applyMaskRange mb m s u.length (u ++ t) =
          applyMaskRange mb m s u.length u ++ t := by
        intro m
        simp only [applyMaskRange, List.take_append_of_le_length (le_trans hs le_rfl),
          hslice, hsliceu, List.drop_left', List.drop_length, List.append_nil,
          List.append_assoc]
      have hA : ∀ m, (applyMaskRange mb m s u.length u).length = u.length :=
        fun m => length_applyMaskRange mb m s u.length u hs le_rfl
      simp only [maskLoopP]
      have hmask : (match g with
          | some ms => ms.headD 0
          | none => fb (((u ++ t).drop s).take (u.length - s))) =
          (match g with
          | some ms => ms.headD 0
          | none => fb ((u.drop s).take (u.length - s))) := by
        cases g with
        | none => simp only [hslice, hsliceu]
        | some ms => rfl
      rw [hmask]
      set m := (match g with
        | some ms => ms.headD 0
        | none => fb ((u.drop s).take (u.length - s))) with hmdef
      rw [happly m]
      set A := applyMaskRange mb m s u.length u with hAdef
      have hAlen : A.length = u.length := hA m
      have hxlen : (A.take s).length = s := by
        rw [List.length_take]; omega
      have hsplit : A ++ t = A.take s ++ (A.drop s ++ t) := by
        rw [← List.append_assoc, List.take_append_drop]
      have hsplitA : A = A.take s ++ A.drop s := (List.take_append_drop s A).symm
      have ih1 := ih (g.map List.tail) (A.take s) (A.drop s ++ t)
      have ih2 := ih (g.map List.tail) (A.take s) (A.drop s)
      rw [hxlen] at ih1 ih2
      rw [hsplit, ih1]
      conv_rhs => rw [hsplitA, ih2]
      simp [List.append_assoc]

theorem maskLoopP_decompose (mb : Nat → Nat → Bool) (fb : List Bool → Nat)
    (caps : List Nat) (g : Option (List Nat)) (e : Nat) (d : List Bool)
    (he : e ≤ d.length) :
    maskLoopP mb fb caps g e d =
      ((maskLoopP mb fb caps g e (d.take e)).1,
        (maskLoopP mb fb caps g e (d.take e)).2 ++ d.drop e) := by
  have hlen : (d.take e).length = e := by rw [List.length_take]; omega
  have := maskLoopP_append mb fb caps g (d.take e) (d.drop e)
  rw [hlen, List.take_append_drop] at this
  exact this

theorem maskLoopP_drop_unchanged (mb : Nat → Nat → Bool) (fb : List Bool → Nat)
    (caps : List Nat) (g : Option (List Nat)) (e : Nat) (d : List Bool)
    (he : e ≤ d.length) :
    (maskLoopP mb fb caps g e d).2.drop e = d.drop e := by
  rw [maskLoopP_decompose mb fb caps g e d he]
  have hlen : (d.take e).length = e := by rw [List.length_take]; omega
  have hres : (maskLoopP mb fb caps g e (d.take e)).2.length = e := by
    rw [maskLoopP_data_length mb fb caps g e (d.take e) (by omega), hlen]
  exact List.drop_left' hres

theorem maskLoopP_given_masks (mb : Nat → Nat → Bool) (fb : List Bool → Nat)
    (caps : List Nat) :
    ∀ (ms : List Nat) (e : Nat) (d : List Bool), ms.length = caps.length →
      (maskLoopP mb fb caps (some ms) e d).1 = ms := by
  induction caps with
  | nil =>
      intro ms e d h
      simp only [List.length_nil, List.length_eq_zero] at h
      subst h; rfl
  | cons c cs ih =>
      intro ms e d h
      cases ms with
      | nil => simp at h
      | cons m mrest =>
          simp only [maskLoopP, Option.map_some', List.tail_cons, List.headD_cons]
          rw [ih mrest _ _ (by simpa using h)]

theorem maskLoopP_refeed (mb : Nat → Nat → Bool) (fb : List Bool → Nat)
    (caps : List Nat) :
    ∀ (e : Nat) (d : List Bool),
      maskLoopP mb fb caps (some (maskLoopP mb fb caps none e d).1) e d =
        maskLoopP mb fb caps none e d := by
  induction caps with
  | nil => intro e d; rfl
  | cons c cs ih =>
      intro e d
      simp only [maskLoopP, Option.map_some', Option.map_none', List.tail_cons,
        List.headD_cons]
      rw [ih]

theorem maskLoopP_selfinv (mb : Nat → Nat → Bool) (fb : List Bool → Nat)
    (caps : List Nat) :
    ∀ (ms : List Nat) (u : List Bool), ms.length = caps.length →
      maskLoopP mb fb caps (some ms) u.length
        (maskLoopP mb fb caps (some ms) u.length u).2 = (ms, u) := by
  induction caps with
  | nil =>
      intro ms u h
      simp only [List.length_nil, List.length_eq_zero] at h
      subst h; rfl
  | cons c cs ih =>
      intro ms u h
      cases ms with
      | nil => simp at h
      | cons m mrest =>
          have hmrest : mrest.length = cs.length := by simpa using h
          have hs : clampStart u.length c ≤ u.length := by rw [clampStart_eq]; omega
          set s := clampStart u.length c with hsdef
          have hdlen : (u.drop s).length = u.length - s := List.length_drop s u
          have hsliceu : (u.drop s).take (u.length - s) = u.drop s :=
            List.take_of_length_le (by omega)
          set X := Masking.xorSlice mb m (u.drop s) with hXdef
          have hXlen : X.length = u.length - s := by
            rw [hXdef, Masking.length_xorSlice]; omega
          have happ1 : applyMaskRange mb m s u.length u = u.take s ++ X := by
            simp only [applyMaskRange, hsliceu, List.drop_length, List.append_nil, hXdef]
          have htlen : (u.take s).length = s := by rw [List.length_take]; omega
          -- first application
          have hfirst : maskLoopP mb fb (c :: cs) (some (m :: mrest)) u.length u =
              (m :: (maskLoopP mb fb cs (some mrest) s (u.take s)).1,
                (maskLoopP mb fb cs (some mrest) s (u.take s)).2 ++ X) := by
            simp only [maskLoopP, Option.map_some', List.tail_cons, List.headD_cons, happ1]
            have := maskLoopP_append mb fb cs (some mrest) (u.take s) X
            rw [htlen] at this
            rw [this]
          rw [hfirst]
          set D := (maskLoopP mb fb cs (some mrest) s (u.take s)).2 with hDdef
          have hDlen : D.length = s := by
            rw [hDdef, maskLoopP_data_length mb fb cs (some mrest) s (u.take s) (by omega), htlen]
          -- second application on D ++ X
          have hDXlen : (D ++ X).length = u.length := by
            simp only [List.length_append, hDlen, hXlen]; omega
          have hsliceDX : ((D ++ X).drop s).take (u.length - s) = X := by
            rw [List.drop_left' hDlen, List.take_of_length_le (by omega)]
          have happ2 : applyMaskRange mb m s u.length (D ++ X) = D ++ u.drop s := by
            simp only [applyMaskRange, hsliceDX]
            rw [List.take_left' hDlen, ← hDXlen, List.drop_length, List.append_nil,
              hXdef, Masking.xorSlice_xorSlice]
          have hstep : maskLoopP mb fb (c :: cs) (some (m :: mrest)) u.length (D ++ X) =
              (m :: (maskLoopP mb fb cs (some mrest) s (D ++ u.drop s)).1,
                (maskLoopP mb fb cs (some mrest) s (D ++ u.drop s)).2) := by
            conv_lhs => rw [maskLoopP]
            simp only [Option.map_some', List.tail_cons, List.headD_cons, ← hsdef, happ2]
          rw [hstep]
          have hrec : maskLoopP mb fb cs (some mrest) s (D ++ u.drop s) =
              ((maskLoopP mb fb cs (some mrest) s D).1,
                (maskLoopP mb fb cs (some mrest) s D).2 ++ u.drop s) := by
            have := maskLoopP_append mb fb cs (some mrest) D (u.drop s)
            rw [hDlen] at this
            exact this
          have hIH : maskLoopP mb fb cs (some mrest) s D = (mrest, u.take s) := by
            have := ih mrest (u.take s) hmrest
            rw [htlen] at this
            rw [hDdef]
            exact this
          rw [hrec, hIH]
          simp [List.take_append_drop]

theorem xorChunks_concat (mb : Nat → Nat → Bool) (cs : List Nat) :
    ∀ (ms : List Nat) (c m : Nat) (d : List Bool),
      ms.length = cs.length → d.length = cs.sum + c →
      xorChunks mb (cs ++ [c]) (ms ++ [m]) d =
        xorChunks mb cs ms (d.take cs.sum) ++
          Masking.xorSlice mb m (d.drop cs.sum) := by
  induction cs with
  | nil =>
      intro ms c m d hms hd
      simp only [List.length_nil, List.length_eq_zero] at hms
      subst hms
      simp only [List.sum_nil, Nat.zero_add] at hd
      simp only [List.nil_append, List.sum_nil, List.take_zero, List.drop_zero, xorChunks]
      rw [List.take_of_length_le (by omega), List.drop_of_length_le (by omega)]
      simp [xorChunks]
  | cons c' cs' ih =>
      intro ms c m d hms hd
      cases ms with
      | nil => simp at hms
      | cons m' ms' =>
          have hms' : ms'.length = cs'.length := by simpa using hms
          have hc' : c' ≤ d.length := by
            simp only [List.sum_cons] at hd; omega
          have hdrop : (d.drop c').length = cs'.sum + c := by
            simp only [List.length_drop]
            simp only [List.sum_cons] at hd
            omega
          simp only [List.cons_append, xorChunks, List.append_eq]
          rw [ih ms' c m (d.drop c') hms' hdrop]
          have hsum : (c' :: cs').sum = c' + cs'.sum := List.sum_cons
          have h1 : (d.take (c' :: cs').sum).take c' = d.take c' := by
            rw [hsum, List.take_take]
            have hmin : min c' (c' + cs'.sum) = c' := by omega
            rw [hmin]
          have h2 : (d.take (c' :: cs').sum).drop c' = (d.drop c').take cs'.sum := by
            rw [hsum, List.drop_take]
            have harith : c' + cs'.sum - c' = cs'.sum := by omega
            rw [harith]
          have h3 : (d.drop c').drop cs'.sum = d.drop (c' :: cs').sum := by
            rw [List.drop_drop, hsum]
          rw [h1, h2, h3, List.append_assoc]

theorem maskLoopP_char (mb : Nat → Nat → Bool) (fb : List Bool → Nat)
    (caps : List Nat) :
    ∀ (msP : List Nat) (u : List Bool), msP.length = caps.length →
      caps.sum ≤ u.length →
      maskLoopP mb fb caps (some msP) u.length u =
        (msP, u.take (u.length - caps.sum) ++
          xorChunks mb caps.reverse msP.reverse
            (u.drop (u.length - caps.sum))) := by
  induction caps with
  | nil =>
      intro msP u hms _
      simp only [List.length_nil, List.length_eq_zero] at hms
      subst hms
      show ([], u) = _
      simp [xorChunks]
  | cons c cs ih =>
      intro msP u hms hW
      cases msP with
      | nil => simp at hms
      | cons m ms' =>
          have hms' : ms'.length = cs.length := by simpa using hms
          have hWc : c + cs.sum ≤ u.length := by
            simp only [List.sum_cons] at hW; omega
          have hs : clampStart u.length c = u.length - c := by
            rw [clampStart_eq]; omega
          set s := u.length - c with hsdef
          have hslen : s ≤ u.length := by omega
          have hdlen : (u.drop s).length = u.length - s := List.length_drop s u
          have hsliceu : (u.drop s).take (u.length - s) = u.drop s :=
            List.take_of_length_le (by omega)
          have happ1 : applyMaskRange mb m s u.length u =
              u.take s ++ Masking.xorSlice mb m (u.drop s) := by
            simp only [applyMaskRange, hsliceu, List.drop_length, List.append_nil]
          have htlen : (u.take s).length = s := by rw [List.length_take]; omega
          have hstep : maskLoopP mb fb (c :: cs) (some (m :: ms')) u.length u =
              (m :: (maskLoopP mb fb cs (some ms') s (u.take s)).1,
                (maskLoopP mb fb cs (some ms') s (u.take s)).2 ++
                  Masking.xorSlice mb m (u.drop s)) := by
            conv_lhs => rw [maskLoopP]
            simp only [Option.map_some', List.tail_cons, List.headD_cons, hs, ← hsdef, happ1]
            have := maskLoopP_append mb fb cs (some ms')
              (u.take s) (Masking.xorSlice mb m (u.drop s))
            rw [htlen] at this
            rw [this]
          rw [hstep]
          have hIH := ih ms' (u.take s) hms' (by rw [htlen]; simp only [List.sum_cons] at hW; omega)
          rw [htlen] at hIH
          rw [hIH]
          have hkey : s - cs.sum = u.length - (c :: cs).sum := by
            simp only [List.sum_cons]; omega
          have ht1 : (u.take s).take (s - cs.sum) = u.take (u.length - (c :: cs).sum) := by
            rw [List.take_take, List.sum_cons]
            have hmin : min (s - cs.sum) s = u.length - (c + cs.sum) := by omega
            rw [hmin]
          have hrevlen : ms'.reverse.length = cs.reverse.length := by
            simp [hms']
          have hwinlen : (u.drop (u.length - (c :: cs).sum)).length =
              cs.reverse.sum + c := by
            simp only [List.length_drop, List.sum_reverse, List.sum_cons]
            omega
          have hconcat := xorChunks_concat mb cs.reverse ms'.reverse c m
            (u.drop (u.length - (c :: cs).sum)) hrevlen hwinlen
          have hrs : (c :: cs).reverse = cs.reverse ++ [c] := by simp
          have hrm : (m :: ms').reverse = ms'.reverse ++ [m] := by simp
          rw [hrs, hrm, hconcat]
          have hsumc : (c :: cs).sum = c + cs.sum := List.sum_cons
          have ht2 : (u.take s).drop (s - cs.sum) =
              (u.drop (u.length - (c :: cs).sum)).take cs.reverse.sum := by
            rw [List.drop_take, List.sum_reverse, hsumc]
            have a1 : s - (s - cs.sum) = cs.sum := by omega
            have a2 : s - cs.sum = u.length - (c + cs.sum) := by omega
            rw [a1, a2]
          have ht3 : u.drop s =
              (u.drop (u.length - (c :: cs).sum)).drop cs.reverse.sum := by
            rw [List.sum_reverse, List.drop_drop, hsumc]
            have a3 : u.length - (c + cs.sum) + cs.sum = s := by omega
            rw [a3]
          rw [ht1, ht2, ht3, List.append_assoc]

theorem maskLoopP_take_front (mb : Nat → Nat → Bool) (fb : List Bool → Nat)
    (caps : List Nat) :
    ∀ (g : Option (List Nat)) (e : Nat) (d : List Bool), e ≤ d.length →
      (maskLoopP mb fb caps g e d).2.take (e - min caps.sum e) =
        d.take (e - min caps.sum e) := by
  induction caps with
  | nil => intro g e d _; rfl
  | cons c cs ih =>
      intro g e d he
      have hs : clampStart e c = e - min c e := clampStart_eq e c
      set s := clampStart e c with hsdef
      have hse : s ≤ e := by omega
      have hk : e - min (c :: cs).sum e = s - min cs.sum s := by
        rw [List.sum_cons]; omega
      simp only [maskLoopP]
      set m := (match g with
        | some ms => ms.headD 0
        | none => fb ((d.drop s).take (e - s))) with hmdef
      set d1 := applyMaskRange mb m s e d with hd1def
      have hd1len : d1.length = d.length :=
        length_applyMaskRange mb m s e d hse he
      have hrec := ih (g.map List.tail) s d1 (by omega)
      rw [hk, hrec]
      have hkk : s - min cs.sum s ≤ s := by omega
      have htake : d1.take (s - min cs.sum s) = d.take (s - min cs.sum s) := by
        rw [hd1def]
        simp only [applyMaskRange, List.append_assoc]
        rw [List.take_append_of_le_length (by rw [List.length_take]; omega),
          List.take_take]
        have hmin : min (s - min cs.sum s) s = s - min cs.sum s := by omega
        rw [hmin]
      rw [htake]

theorem maskHexagonRings_masks_length (cap : Nat → Nat) (mb : Nat → Nat → Bool)
    (fb : List Bool → Nat) (ringCount maskCount : Nat)
    (givenMasks : Option (List Nat)) (dataToMask : List Bool) :
    (maskHexagonRings cap mb fb ringCount maskCount givenMasks dataToMask).1.length =
      maskCount := by
  simp [maskHexagonRings, maskLoopP_masks_length]

theorem maskHexagonRings_data_length (cap : Nat → Nat) (mb : Nat → Nat → Bool)
    (fb : List Bool → Nat) (ringCount maskCount : Nat)
    (givenMasks : Option (List Nat)) (dataToMask : List Bool) :
    (maskHexagonRings cap mb fb ringCount maskCount givenMasks dataToMask).2.length =
      dataToMask.length := by
  simp [maskHexagonRings, maskLoopP_data_length]

theorem totalCap_succ (cap : Nat → Nat) (n : Nat) :
    totalCap cap (n + 1) = totalCap cap n + cap n := by
  simp [totalCap, List.range_succ]

theorem sizeLoop_correct (cap : Nat → Nat) (pl ec : Nat) :
    ∀ (fuel n m : Nat), n ≤ m → m ≤ n + fuel →
      (2 ≤ m ∧ calculateLength m pl ec ≤ totalCap cap m) →
      (2 ≤ sizeLoop cap pl ec fuel n ∧
        calculateLength (sizeLoop cap pl ec fuel n) pl ec ≤
          totalCap cap (sizeLoop cap pl ec fuel n)) ∧
      n ≤ sizeLoop cap pl ec fuel n ∧
      sizeLoop cap pl ec fuel n ≤ m ∧
      (∀ k, n ≤ k → k < sizeLoop cap pl ec fuel n →
        ¬(2 ≤ k ∧ calculateLength k pl ec ≤ totalCap cap k)) := by
  intro fuel
  induction fuel with
  | zero =>
      intro n m hnm hmn hP
      have : m = n := by omega
      subst this
      simp only [sizeLoop]
      exact ⟨hP, le_rfl, le_rfl, fun k h1 h2 => by omega⟩
  | succ fuel ih =>
      intro n m hnm hmn hP
      by_cases hn : 2 ≤ n ∧ calculateLength n pl ec ≤ totalCap cap n
      · simp only [sizeLoop, if_pos hn]
        exact ⟨hn, le_rfl, hnm, fun k h1 h2 => by omega⟩
      · simp only [sizeLoop, if_neg hn]
        have hne : n ≠ m := by
          intro h; subst h; exact hn hP
        have h1 : n + 1 ≤ m := by omega
        have h2 : m ≤ (n + 1) + fuel := by omega
        obtain ⟨hPr, hlow, hup, hmin⟩ := ih (n + 1) m h1 h2 hP
        refine ⟨hPr, by omega, hup, fun k hk1 hk2 => ?_⟩
        rcases Nat.eq_or_lt_of_le hk1 with hk | hk
        · subst hk; exact hn
        · exact hmin k (by omega) hk2

theorem calculateLength_eq (n pl ec : Nat) :
    calculateLength n pl ec = 58 + 2 * n + pl + ec := by
  simp only [calculateLength, NimiqodeHeader.calculateLength,
    NimiqodeHeader.calculateMaskCount]

theorem totalCap_model_ge (n : Nat) : 56 * n ≤ totalCap hexRingBitCount n := by
  induction n with
  | zero => simp [totalCap]
  | succ n ih =>
      rw [totalCap_succ]
      simp only [hexRingBitCount]
      omega

theorem createHexagonRings_spec (pl ec : Nat) :
    (2 ≤ createHexagonRings hexRingBitCount pl ec ∧
      calculateLength (createHexagonRings hexRingBitCount pl ec) pl ec ≤
        totalCap hexRingBitCount (createHexagonRings hexRingBitCount pl ec)) ∧
    1 ≤ createHexagonRings hexRingBitCount pl ec ∧
    createHexagonRings hexRingBitCount pl ec ≤ pl + ec + 2 ∧
    (∀ k, 1 ≤ k → k < createHexagonRings hexRingBitCount pl ec →
      ¬(2 ≤ k ∧ calculateLength k pl ec ≤ totalCap hexRingBitCount k)) := by
  have hm : 2 ≤ pl + ec + 2 ∧
      calculateLength (pl + ec + 2) pl ec ≤ totalCap hexRingBitCount (pl + ec + 2) := by
    constructor
    · omega
    · rw [calculateLength_eq]
      have := totalCap_model_ge (pl + ec + 2)
      omega
  exact sizeLoop_correct hexRingBitCount pl ec (pl + ec + 4) 1 (pl + ec + 2)
    (by omega) (by omega) hm

theorem totalCap_shift (cap : Nat → Nat) (n : Nat) :
    totalCap cap (n + 1) = cap 0 + totalCap (fun i => cap (i + 1)) n := by
  simp only [totalCap, List.range_succ_eq_map, List.map_cons, List.sum_cons,
    List.map_map]
  rfl

theorem flatten_assignHexagonRingData (n : Nat) :
    ∀ (cap : Nat → Nat) (data : List Bool), totalCap cap n = data.length →
      (assignHexagonRingData cap n data).flatten = data := by
  induction n with
  | zero =>
      intro cap data h
      simp only [totalCap, List.range_zero, List.map_nil, List.sum_nil] at h
      simp only [assignHexagonRingData, List.flatten_nil]
      exact (List.eq_nil_of_length_eq_zero h.symm).symm
  | succ n ih =>
      intro cap data h
      rw [totalCap_shift] at h
      simp only [assignHexagonRingData, List.flatten_cons]
      rw [ih (fun i => cap (i + 1)) (data.drop (cap 0)) (by simp; omega),
        List.take_append_drop]

theorem maskLoopP_none_masks_lt (mb : Nat → Nat → Bool) (caps : List Nat) :
    ∀ (e : Nat) (d : List Bool) (x : Nat),
      x ∈ (maskLoopP mb Masking.findBestMask caps none e d).1 → x < 4 := by
  induction caps with
  | nil => intro e d x hx; simp [maskLoopP] at hx
  | cons c cs ih =>
      intro e d x hx
      simp only [maskLoopP, Option.map_none', List.mem_cons] at hx
      rcases hx with hx | hx
      · subst hx; exact Masking.findBestMask_lt _
      · exact ih _ _ x hx

theorem maskHexagonRings_invert (cap : Nat → Nat) (mb : Nat → Nat → Bool)
    (fb : List Bool → Nat) (ringCount maskCount : Nat) (d : List Bool) :
    maskHexagonRings cap mb fb ringCount maskCount
      (some (maskHexagonRings cap mb fb ringCount maskCount none d).1)
      (maskHexagonRings cap mb fb ringCount maskCount none d).2 =
      ((maskHexagonRings cap mb fb ringCount maskCount none d).1, d) := by
  simp only [maskHexagonRings, Option.map_some', Option.map_none',
    List.reverse_reverse]
  set caps := (List.range maskCount).map fun i => cap (ringCount - 1 - i) with hcaps
  set rE := maskLoopP mb fb caps none d.length d with hrE
  have hlen2 : rE.2.length = d.length := by
    rw [hrE]; exact maskLoopP_data_length mb fb caps none d.length d le_rfl
  have hmslen : rE.1.length = caps.length := by
    rw [hrE]; exact maskLoopP_masks_length mb fb caps none d.length d
  have hrefeed : maskLoopP mb fb caps (some rE.1) d.length d = rE := by
    rw [hrE]; exact maskLoopP_refeed mb fb caps d.length d
  have hself := maskLoopP_selfinv mb fb caps rE.1 d hmslen
  rw [hrefeed] at hself
  rw [hlen2, hself]

theorem prelim_le (pl : Nat) (f : ℚ) (_hf0 : 0 ≤ f) (hfM : f ≤ 2) :
    (Int.ceil ((pl : ℚ) * f)).toNat ≤ 2 * pl := by
  have h1 : (pl : ℚ) * f ≤ ((2 * pl : Nat) : ℚ) := by
    push_cast
    nlinarith [Rat.num_nonneg.mpr _hf0]
  have h2 : Int.ceil ((pl : ℚ) * f) ≤ Int.ceil (((2 * pl : Nat) : ℚ)) :=
    Int.ceil_le_ceil h1
  rw [Int.ceil_natCast] at h2
  omega

theorem core_ringCount (cap : Nat → Nat) (mb : Nat → Nat → Bool)
    (fb : List Bool → Nat) (P : List Nat) (f : ℚ) (v : Nat) :
    (constructFromPayloadCore cap mb fb P f v).ringCount =
      createHexagonRings cap (P.length * 8)
        (Int.ceil (((P.length * 8 : Nat) : ℚ) * f)).toNat := rfl

theorem core_headerLength (cap : Nat → Nat) (mb : Nat → Nat → Bool)
    (fb : List Bool → Nat) (P : List Nat) (f : ℚ) (v : Nat) :
    (constructFromPayloadCore cap mb fb P f v).headerLength =
      NimiqodeHeader.calculateLength (NimiqodeHeader.calculateMaskCount
        (constructFromPayloadCore cap mb fb P f v).ringCount) := rfl

theorem core_ecLength (cap : Nat → Nat) (mb : Nat → Nat → Bool)
    (fb : List Bool → Nat) (P : List Nat) (f : ℚ) (v : Nat) :
    (constructFromPayloadCore cap mb fb P f v).ecLength =
      totalCap cap (constructFromPayloadCore cap mb fb P f v).ringCount -
        (constructFromPayloadCore cap mb fb P f v).headerLength -
        P.length * 8 := rfl

theorem core_masks (cap : Nat → Nat) (mb : Nat → Nat → Bool)
    (fb : List Bool → Nat) (P : List Nat) (f : ℚ) (v : Nat) :
    (constructFromPayloadCore cap mb fb P f v).masks =
      (maskHexagonRings cap mb fb
        (constructFromPayloadCore cap mb fb P f v).ringCount
        (NimiqodeHeader.calculateMaskCount
          (constructFromPayloadCore cap mb fb P f v).ringCount) none
        (LDPC.encode (bytesToBits P)
          (constructFromPayloadCore cap mb fb P f v).ecLength)).1 := rfl

theorem core_data (cap : Nat → Nat) (mb : Nat → Nat → Bool)
    (fb : List Bool → Nat) (P : List Nat) (f : ℚ) (v : Nat) :
    (constructFromPayloadCore cap mb fb P f v).data =
      NimiqodeHeader.write v (P.length * 8)
        (constructFromPayloadCore cap mb fb P f v).ecLength
        (CRC16.crc16 P) (constructFromPayloadCore cap mb fb P f v).masks ++
      (maskHexagonRings cap mb fb
        (constructFromPayloadCore cap mb fb P f v).ringCount
        (NimiqodeHeader.calculateMaskCount
          (constructFromPayloadCore cap mb fb P f v).ringCount) none
        (LDPC.encode (bytesToBits P)
          (constructFromPayloadCore cap mb fb P f v).ecLength)).2 := rfl

theorem headerLength_val (n : Nat) :
    NimiqodeHeader.calculateLength (NimiqodeHeader.calculateMaskCount n) =
      58 + 2 * n := by
  simp [NimiqodeHeader.calculateLength, NimiqodeHeader.calculateMaskCount]

theorem encode_core_spec (P : List Nat) (f : ℚ)
    (_hP : P.length ≠ 0) (hf0 : 0 ≤ f)
    (hfM : f ≤ NimiqodeSpecification.MAX_FACTOR_ERROR_CORRECTION_DATA)
    (hsize : P.length ≤ 2 ^ 12) :
    2 ≤ (constructFromPayloadCore hexRingBitCount Masking.maskBit
        Masking.findBestMask P f 0).ringCount ∧
    totalCap hexRingBitCount (constructFromPayloadCore hexRingBitCount
        Masking.maskBit Masking.findBestMask P f 0).ringCount =
      (constructFromPayloadCore hexRingBitCount Masking.maskBit
        Masking.findBestMask P f 0).headerLength + P.length * 8 +
      (constructFromPayloadCore hexRingBitCount Masking.maskBit
        Masking.findBestMask P f 0).ecLength ∧
    (Int.ceil (((P.length * 8 : Nat) : ℚ) * f)).toNat ≤
      (constructFromPayloadCore hexRingBitCount Masking.maskBit
        Masking.findBestMask P f 0).ecLength ∧
    (constructFromPayloadCore hexRingBitCount Masking.maskBit
        Masking.findBestMask P f 0).ecLength < 2 ^ 24 ∧
    (constructFromPayloadCore hexRingBitCount Masking.maskBit
        Masking.findBestMask P f 0).data.length =
      totalCap hexRingBitCount (constructFromPayloadCore hexRingBitCount
        Masking.maskBit Masking.findBestMask P f 0).ringCount ∧
    (constructFromPayloadCore hexRingBitCount Masking.maskBit
        Masking.findBestMask P f 0).masks.length =
      (constructFromPayloadCore hexRingBitCount Masking.maskBit
        Masking.findBestMask P f 0).ringCount := by
  set pl := P.length * 8 with hpl
  set prelim := (Int.ceil ((pl : ℚ) * f)).toNat with hprelim
  obtain ⟨⟨hn2, hcap⟩, hn1, hnup, hmin⟩ := createHexagonRings_spec pl prelim
  set n := createHexagonRings hexRingBitCount pl prelim with hn
  have hplle : pl ≤ 32768 := by rw [hpl]; omega
  have hprelimle : prelim ≤ 65536 := by
    have := prelim_le pl f hf0 (by
      simpa [NimiqodeSpecification.MAX_FACTOR_ERROR_CORRECTION_DATA] using hfM)
    omega
  rw [calculateLength_eq] at hcap
  have hrc : (constructFromPayloadCore hexRingBitCount Masking.maskBit
      Masking.findBestMask P f 0).ringCount = n := by
    rw [core_ringCount]
  have hhl : (constructFromPayloadCore hexRingBitCount Masking.maskBit
      Masking.findBestMask P f 0).headerLength = 58 + 2 * n := by
    rw [core_headerLength, hrc, headerLength_val]
  have hec : (constructFromPayloadCore hexRingBitCount Masking.maskBit
      Masking.findBestMask P f 0).ecLength =
      totalCap hexRingBitCount n - (58 + 2 * n) - pl := by
    rw [core_ecLength, hrc, core_headerLength, hrc, headerLength_val, hpl]
  have hecbound : totalCap hexRingBitCount n - (58 + 2 * n) - pl < 2 ^ 24 := by
    rcases Nat.lt_or_ge n 3 with h3 | h3
    · have hn2' : n = 2 := by omega
      have h128 : totalCap hexRingBitCount 2 = 128 := by
        simp [totalCap, List.range_succ, hexRingBitCount]
      rw [hn2', h128]
      omega
    · have hk := hmin (n - 1) (by omega) (by omega)
      have hk2 : 2 ≤ n - 1 := by omega
      have hkcap : ¬(calculateLength (n - 1) pl prelim ≤
          totalCap hexRingBitCount (n - 1)) := by
        intro hcontra
        exact hk ⟨hk2, hcontra⟩
      rw [calculateLength_eq] at hkcap
      have hsucc : totalCap hexRingBitCount n =
          totalCap hexRingBitCount (n - 1) + hexRingBitCount (n - 1) := by
        have heq := totalCap_succ hexRingBitCount (n - 1)
        have hn1' : n - 1 + 1 = n := by omega
        rw [hn1'] at heq
        exact heq
      simp only [hexRingBitCount] at hsucc
      omega
  have hmaskslen : (constructFromPayloadCore hexRingBitCount Masking.maskBit
      Masking.findBestMask P f 0).masks.length = n := by
    rw [core_masks, maskHexagonRings_masks_length, hrc,
      NimiqodeHeader.calculateMaskCount]
  have hdatalen : (constructFromPayloadCore hexRingBitCount Masking.maskBit
      Masking.findBestMask P f 0).data.length = totalCap hexRingBitCount n := by
    rw [core_data]
    simp only [List.length_append]
    rw [NimiqodeHeader.length_write, hmaskslen, NimiqodeHeader.calculateLength,
      maskHexagonRings_data_length, LDPC.length_encode, length_bytesToBits, hec]
    omega
  refine ⟨by rw [hrc]; exact hn2, ?_, ?_, ?_, ?_, ?_⟩
  · rw [hrc, hhl, hec]
    omega
  · rw [hec]
    omega
  · rw [hec]
    exact hecbound
  · rw [hdatalen, hrc]
  · rw [hmaskslen, hrc]

theorem maskHexagonRings_none_masks_lt (cap : Nat → Nat) (mb : Nat → Nat → Bool)
    (ringCount maskCount : Nat) (d : List Bool) :
    ∀ x ∈ (maskHexagonRings cap mb Masking.findBestMask ringCount maskCount
      none d).1, x < 4 := by
  intro x hx
  simp only [maskHexagonRings, Option.map_none', List.mem_reverse] at hx
  exact maskLoopP_none_masks_lt mb _ _ _ x hx

theorem roundtrip_master (P : List Nat) (f : ℚ)
    (hP : P.length ≠ 0) (hbytes : ∀ b ∈ P, b < 256) (hf0 : 0 ≤ f)
    (hfM : f ≤ NimiqodeSpecification.MAX_FACTOR_ERROR_CORRECTION_DATA)
    (hsize : P.length ≤ 2 ^ 12) :
    decodeScan (constructFromPayloadCore hexRingBitCount Masking.maskBit
        Masking.findBestMask P f 0).ringCount
      (constructFromPayloadCore hexRingBitCount Masking.maskBit
        Masking.findBestMask P f 0).data = .ok P := by
  have hfacts := encode_core_spec P f hP hf0 hfM hsize
  set C := constructFromPayloadCore hexRingBitCount Masking.maskBit
    Masking.findBestMask P f 0 with hC
  obtain ⟨h2n, hcapeq, hprelimle', hecbound, hdatalen, hmaskslen⟩ := hfacts
  have hcdata := core_data hexRingBitCount Masking.maskBit Masking.findBestMask P f 0
  have hchl := core_headerLength hexRingBitCount Masking.maskBit Masking.findBestMask P f 0
  have hcmasks := core_masks hexRingBitCount Masking.maskBit Masking.findBestMask P f 0
  rw [← hC] at hcdata hchl hcmasks
  have hwlen : (NimiqodeHeader.write 0 (P.length * 8) C.ecLength
      (CRC16.crc16 P) C.masks).length = C.headerLength := by
    rw [NimiqodeHeader.length_write, hmaskslen, hchl, NimiqodeHeader.calculateMaskCount]
  have htake : C.data.take C.headerLength =
      NimiqodeHeader.write 0 (P.length * 8) C.ecLength (CRC16.crc16 P) C.masks := by
    rw [hcdata]
    exact List.take_left' hwlen
  have hdrop : C.data.drop C.headerLength =
      (maskHexagonRings hexRingBitCount Masking.maskBit Masking.findBestMask
        C.ringCount (NimiqodeHeader.calculateMaskCount C.ringCount) none
        (LDPC.encode (bytesToBits P) C.ecLength)).2 := by
    rw [hcdata]
    exact List.drop_left' hwlen
  have hpllt : P.length * 8 < 2 ^ 16 := by
    have : (2 : Nat) ^ 12 = 4096 := by norm_num
    omega
  have hmasklt : ∀ m ∈ C.masks, m < 2 ^ 2 := by
    intro m hm
    rw [hcmasks] at hm
    exact maskHexagonRings_none_masks_lt hexRingBitCount Masking.maskBit _ _ _ m hm
  have hread := NimiqodeHeader.read_write 0 (P.length * 8) C.ecLength
    (CRC16.crc16 P) C.masks [] (by norm_num) hpllt hecbound
    (CRC16.crc16_lt P) hmasklt
  rw [List.append_nil, hmaskslen] at hread
  have hreadfull : NimiqodeHeader.read
      (C.data.take (NimiqodeHeader.calculateLength
        (NimiqodeHeader.calculateMaskCount C.ringCount)))
      (NimiqodeHeader.calculateMaskCount C.ringCount) =
      ⟨0, P.length * 8, C.ecLength, CRC16.crc16 P, C.masks⟩ := by
    rw [← hchl, htake, NimiqodeHeader.calculateMaskCount]
    exact hread
  have hlensum : NimiqodeHeader.calculateLength
      (NimiqodeHeader.calculateMaskCount C.ringCount) +
      P.length * 8 + C.ecLength = C.data.length := by
    rw [← hchl, hdatalen, hcapeq]
  have hinv := maskHexagonRings_invert hexRingBitCount Masking.maskBit
    Masking.findBestMask C.ringCount (NimiqodeHeader.calculateMaskCount C.ringCount)
    (LDPC.encode (bytesToBits P) C.ecLength)
  rw [← hcmasks] at hinv
  have hbitslen : (bytesToBits P).length = P.length * 8 := length_bytesToBits P
  have hfec : LDPC.decode ((maskHexagonRings hexRingBitCount Masking.maskBit
      Masking.findBestMask C.ringCount
      (NimiqodeHeader.calculateMaskCount C.ringCount) (some C.masks)
      ((maskHexagonRings hexRingBitCount Masking.maskBit Masking.findBestMask
        C.ringCount (NimiqodeHeader.calculateMaskCount C.ringCount) none
        (LDPC.encode (bytesToBits P) C.ecLength)).2)).2)
      (P.length * 8) C.ecLength = some (bytesToBits P) := by
    rw [hinv]
    rw [← hbitslen]
    exact LDPC.decode_encode (bytesToBits P) C.ecLength
  have hbytesroundtrip : bytesOf (P.length * 8 / 8) (bytesToBits P) = P := by
    have hdiv : P.length * 8 / 8 = P.length := by omega
    rw [hdiv]
    exact bytesOf_bytesToBits P hbytes
  simp only [decodeScan, constructFromScan, hreadfull]
  rw [if_neg (show ¬((0 : Nat) ≠ 0) by simp)]
  rw [if_neg (show ¬(NimiqodeHeader.calculateLength
    (NimiqodeHeader.calculateMaskCount C.ringCount) + P.length * 8 +
    C.ecLength ≠ C.data.length) by simp [hlensum])]
  rw [hchl] at hdrop
  rw [hdrop, hfec]
  dsimp only
  rw [hbytesroundtrip]
  rw [if_neg (show ¬(CRC16.crc16 P ≠ CRC16.crc16 P) by simp)]

theorem constructFromPayload_ok (cap : Nat → Nat) (mb : Nat → Nat → Bool)
    (fb : List Bool → Nat) (P : List Nat) (f : ℚ) (v : Nat)
    (hv : v = 0) (hP : P.length ≠ 0) (hf0 : 0 ≤ f)
    (hfM : f ≤ NimiqodeSpecification.MAX_FACTOR_ERROR_CORRECTION_DATA)
    (hsize : P.length ≤ 2 ^ 12) :
    constructFromPayload cap mb fb P f v =
      .ok (constructFromPayloadCore cap mb fb P f v) := by
  have h1 : ¬(v ≠ NimiqodeSpecification.CURRENT_VERSION ∨ P.length = 0) := by
    push_neg
    exact ⟨by rw [hv]; rfl, hP⟩
  have h2 : ¬(f < 0 ∨ NimiqodeSpecification.MAX_FACTOR_ERROR_CORRECTION_DATA < f) := by
    push_neg
    exact ⟨hf0, hfM⟩
  have h3 : ¬(2 ^ NimiqodeSpecification.HEADER_LENGTH_PAYLOAD_LENGTH * 8 <
      P.length * 8) := by
    simp only [NimiqodeSpecification.HEADER_LENGTH_PAYLOAD_LENGTH]
    omega
  simp only [constructFromPayload, if_neg h1, if_neg h2, if_neg h3]

theorem encode_ok_inv (P : List Nat) (f : ℚ) (v : Nat) (r : EncodeResult)
    (h : encode P f v = .ok r) :
    v = 0 ∧ P.length ≠ 0 ∧ 0 ≤ f ∧
    f ≤ NimiqodeSpecification.MAX_FACTOR_ERROR_CORRECTION_DATA ∧
    P.length ≤ 2 ^ 12 ∧
    r = constructFromPayloadCore hexRingBitCount Masking.maskBit
      Masking.findBestMask P f v := by
  simp only [encode, constructFromPayload] at h
  by_cases h1 : v ≠ NimiqodeSpecification.CURRENT_VERSION ∨ P.length = 0
  · rw [if_pos h1] at h
    exact absurd h (by simp)
  · rw [if_neg h1] at h
    by_cases h2 : f < 0 ∨ NimiqodeSpecification.MAX_FACTOR_ERROR_CORRECTION_DATA < f
    · rw [if_pos h2] at h
      exact absurd h (by simp)
    · rw [if_neg h2] at h
      by_cases h3 : 2 ^ NimiqodeSpecification.HEADER_LENGTH_PAYLOAD_LENGTH * 8 <
          P.length * 8
      · rw [if_pos h3] at h
        exact absurd h (by simp)
      · rw [if_neg h3] at h
        push_neg at h1 h2
        simp only [NimiqodeSpecification.CURRENT_VERSION] at h1
        simp only [NimiqodeSpecification.HEADER_LENGTH_PAYLOAD_LENGTH] at h3
        refine ⟨h1.1, h1.2, h2.1, h2.2, by omega, ?_⟩
        have := Except.ok.inj h
        exact this.symm

theorem caps_reverse_eq (cap : Nat → Nat) (rc mc : Nat) (hmc : mc ≤ rc) :
    ((List.range mc).map fun i => cap (rc - 1 - i)).reverse =
      (List.range mc).map fun j => cap (rc - mc + j) := by
  apply List.ext_getElem
  · simp
  · intro i h1 h2
    have hi : i < mc := by simpa using h2
    rw [List.getElem_reverse]
    simp only [List.getElem_map, List.getElem_range, List.length_map,
      List.length_range]
    congr 1
    omega

theorem maskHexagonRings_char (cap : Nat → Nat) (mb : Nat → Nat → Bool)
    (fb : List Bool → Nat) (rc mc : Nat) (ms : List Nat) (d : List Bool)
    (hmc : mc ≤ rc) (hms : ms.length = mc)
    (hW : (((List.range mc).map fun j => cap (rc - mc + j)).sum) ≤ d.length) :
    maskHexagonRings cap mb fb rc mc (some ms) d =
      (ms, d.take (d.length - ((List.range mc).map fun j => cap (rc - mc + j)).sum) ++
        xorChunks mb ((List.range mc).map fun j => cap (rc - mc + j)) ms
          (d.drop (d.length -
            ((List.range mc).map fun j => cap (rc - mc + j)).sum))) := by
  have hrev := caps_reverse_eq cap rc mc hmc
  set caps := (List.range mc).map fun i => cap (rc - 1 - i) with hcaps
  set capsInner := (List.range mc).map fun j => cap (rc - mc + j) with hcapsInner
  have hsum : caps.sum = capsInner.sum := by
    rw [← hrev, List.sum_reverse]
  have hlen : (ms.reverse).length = caps.length := by
    simp [hcaps, hms]
  have hchar := maskLoopP_char mb fb caps ms.reverse d hlen (by omega)
  simp only [maskHexagonRings, Option.map_some']
  rw [hchar]
  simp only [List.reverse_reverse, hrev, hsum]

theorem maskHexagonRings_refeed (cap : Nat → Nat) (mb : Nat → Nat → Bool)
    (fb : List Bool → Nat) (rc mc : Nat) (d : List Bool) :
    maskHexagonRings cap mb fb rc mc
      (some (maskHexagonRings cap mb fb rc mc none d).1) d =
      maskHexagonRings cap mb fb rc mc none d := by
  simp only [maskHexagonRings, Option.map_some', Option.map_none',
    List.reverse_reverse]
  rw [maskLoopP_refeed]

end Nimiqode

/-- C1: for every non-empty payload (of byte values, within the format's
size bound) and every error-correction factor in the valid range
`[0, MAX_FACTOR_ERROR_CORRECTION_DATA]`, encoding with version 0 succeeds
and decoding the produced ring set, with its attached bit-stream data
reassembled in ring order, succeeds and yields the original payload. -/
theorem claim_C1_roundtrip (P : List Nat) (f : ℚ)
    (hP : P ≠ []) (hbytes : ∀ b ∈ P, b < 256) (hf0 : 0 ≤ f)
    (hfM : f ≤ NimiqodeSpecification.MAX_FACTOR_ERROR_CORRECTION_DATA)
    (hsize : P.length ≤ 2 ^ NimiqodeSpecification.HEADER_LENGTH_PAYLOAD_LENGTH) :
    ∃ r : Nimiqode.EncodeResult,
      Nimiqode.encode P f 0 = .ok r ∧
      Nimiqode.decodeScan r.ringCount
        ((Nimiqode.assignHexagonRingData hexRingBitCount r.ringCount
          r.data).flatten) = .ok P := by
  have hlen : P.length ≠ 0 := by
    intro h
    exact hP (List.length_eq_zero.mp h)
  have hsize' : P.length ≤ 2 ^ 12 := by
    simpa [NimiqodeSpecification.HEADER_LENGTH_PAYLOAD_LENGTH] using hsize
  refine ⟨Nimiqode.constructFromPayloadCore hexRingBitCount Masking.maskBit
    Masking.findBestMask P f 0, ?_, ?_⟩
  · exact Nimiqode.constructFromPayload_ok hexRingBitCount Masking.maskBit
      Masking.findBestMask P f 0 rfl hlen hf0 hfM hsize'
  · obtain ⟨_, _, _, _, hdl, _⟩ := Nimiqode.encode_core_spec P f hlen hf0 hfM hsize'
    rw [Nimiqode.flatten_assignHexagonRingData _ hexRingBitCount _ hdl.symm]
    exact Nimiqode.roundtrip_master P f hlen hbytes hf0 hfM hsize'

theorem claim_C1_roundtrip_witness :
    ∃ r : Nimiqode.EncodeResult,
      Nimiqode.encode [1, 2] (1 / 2) 0 = .ok r ∧
      Nimiqode.decodeScan r.ringCount
        ((Nimiqode.assignHexagonRingData hexRingBitCount r.ringCount
          r.data).flatten) = .ok [1, 2] :=
  claim_C1_roundtrip [1, 2] (1 / 2) (by decide) (by decide) (by norm_num)
    (by norm_num [NimiqodeSpecification.MAX_FACTOR_ERROR_CORRECTION_DATA])
    (by norm_num [NimiqodeSpecification.HEADER_LENGTH_PAYLOAD_LENGTH])

/-- C2: every successful encode produces a ring set whose summed bit
capacity equals exactly `headerLength + payloadBits + ecLength` for that
instance, where the final error-correction length is
`totalLength - headerLength - payloadBits` and is at least the preliminary
estimate `ceil(payloadBits * factor)`: no leftover ring capacity becomes
padding. -/
theorem claim_C2_capacity_exactness (P : List Nat) (f : ℚ) (v : Nat)
    (r : Nimiqode.EncodeResult) (h : Nimiqode.encode P f v = .ok r) :
    Nimiqode.totalCap hexRingBitCount r.ringCount =
      r.headerLength + P.length * 8 + r.ecLength ∧
    r.ecLength = Nimiqode.totalCap hexRingBitCount r.ringCount -
      r.headerLength - P.length * 8 ∧
    (Int.ceil (((P.length * 8 : Nat) : ℚ) * f)).toNat ≤ r.ecLength := by
  obtain ⟨hv, hlen, hf0, hfM, hsize, hr⟩ := Nimiqode.encode_ok_inv P f v r h
  subst hv
  subst hr
  obtain ⟨_, hcap, hprelim, _, _, _⟩ :=
    Nimiqode.encode_core_spec P f hlen hf0 hfM hsize
  exact ⟨hcap, Nimiqode.core_ecLength hexRingBitCount Masking.maskBit
    Masking.findBestMask P f 0, hprelim⟩

theorem claim_C2_capacity_exactness_witness :
    Nimiqode.encode [5] 0 0 = .ok (Nimiqode.constructFromPayloadCore
      hexRingBitCount Masking.maskBit Masking.findBestMask [5] 0 0) ∧
    (Nimiqode.totalCap hexRingBitCount (Nimiqode.constructFromPayloadCore
        hexRingBitCount Masking.maskBit Masking.findBestMask [5] 0 0).ringCount =
      (Nimiqode.constructFromPayloadCore hexRingBitCount Masking.maskBit
        Masking.findBestMask [5] 0 0).headerLength + [5].length * 8 +
      (Nimiqode.constructFromPayloadCore hexRingBitCount Masking.maskBit
        Masking.findBestMask [5] 0 0).ecLength ∧
    (Nimiqode.constructFromPayloadCore hexRingBitCount Masking.maskBit
        Masking.findBestMask [5] 0 0).ecLength =
      Nimiqode.totalCap hexRingBitCount (Nimiqode.constructFromPayloadCore
        hexRingBitCount Masking.maskBit Masking.findBestMask [5] 0 0).ringCount -
      (Nimiqode.constructFromPayloadCore hexRingBitCount Masking.maskBit
        Masking.findBestMask [5] 0 0).headerLength - [5].length * 8 ∧
    (Int.ceil ((([5].length * 8 : Nat) : ℚ) * 0)).toNat ≤
      (Nimiqode.constructFromPayloadCore hexRingBitCount Masking.maskBit
        Masking.findBestMask [5] 0 0).ecLength) :=
  ⟨Nimiqode.constructFromPayload_ok hexRingBitCount Masking.maskBit
      Masking.findBestMask [5] 0 0 rfl (by decide) (by norm_num)
      (by norm_num [NimiqodeSpecification.MAX_FACTOR_ERROR_CORRECTION_DATA])
      (by norm_num),
   claim_C2_capacity_exactness [5] 0 0 _
    (Nimiqode.constructFromPayload_ok hexRingBitCount Masking.maskBit
      Masking.findBestMask [5] 0 0 rfl (by decide) (by norm_num)
      (by norm_num [NimiqodeSpecification.MAX_FACTOR_ERROR_CORRECTION_DATA])
      (by norm_num))⟩

/-- C3 counterexample: a 513-byte payload has bit-length `4104`, which
exceeds the number of bits representable in a payload-length field of
width `HEADER_LENGTH_PAYLOAD_LENGTH = 12` bits (whether read as
`2 ^ 12 - 1` or `2 ^ 12`), yet the encode gate passes it and the encode
succeeds: the source's gate (line 38) compares byte counts against
`2 ^ HEADER_LENGTH_PAYLOAD_LENGTH`, i.e. bit counts against
`2 ^ HEADER_LENGTH_PAYLOAD_LENGTH * 8`. -/
theorem claim_C3_size_gate_cex :
    exceptIsOk (Nimiqode.encode (List.replicate 513 1) 0 0) = true ∧
    2 ^ NimiqodeSpecification.HEADER_LENGTH_PAYLOAD_LENGTH - 1 <
      (List.replicate 513 (1 : Nat)).length * 8 ∧
    2 ^ NimiqodeSpecification.HEADER_LENGTH_PAYLOAD_LENGTH <
      (List.replicate 513 (1 : Nat)).length * 8 := by
  refine ⟨?_, ?_, ?_⟩
  · have h1 : ¬((0 : Nat) ≠ NimiqodeSpecification.CURRENT_VERSION ∨
        (List.replicate 513 (1 : Nat)).length = 0) := by
      refine not_or.mpr ⟨by simp [NimiqodeSpecification.CURRENT_VERSION], ?_⟩
      simp only [List.length_replicate]
      omega
    have h2 : ¬((0 : ℚ) < 0 ∨
        NimiqodeSpecification.MAX_FACTOR_ERROR_CORRECTION_DATA < 0) := by
      norm_num [NimiqodeSpecification.MAX_FACTOR_ERROR_CORRECTION_DATA]
    have h3 : ¬(2 ^ NimiqodeSpecification.HEADER_LENGTH_PAYLOAD_LENGTH * 8 <
        (List.replicate 513 (1 : Nat)).length * 8) := by
      simp only [List.length_replicate, NimiqodeSpecification.HEADER_LENGTH_PAYLOAD_LENGTH]
      norm_num
    simp only [Nimiqode.encode, Nimiqode.constructFromPayload, if_neg h1,
      if_neg h2, if_neg h3, exceptIsOk]
  · simp only [List.length_replicate, NimiqodeSpecification.HEADER_LENGTH_PAYLOAD_LENGTH]
    norm_num
  · simp only [List.length_replicate, NimiqodeSpecification.HEADER_LENGTH_PAYLOAD_LENGTH]
    norm_num

/-- C3 amended: for encode calls passing the payload/factor/version
guards, encode fails with `PayloadTooLarge` exactly when the payload's
bit-length exceeds `2 ^ HEADER_LENGTH_PAYLOAD_LENGTH * 8` bits, i.e. when
its byte length exceeds `2 ^ HEADER_LENGTH_PAYLOAD_LENGTH` bytes; payloads
at or below that bound pass the gate. -/
theorem claim_C3_size_gate_amended (P : List Nat) (f : ℚ) (v : Nat)
    (hv : v = 0) (hP : P.length ≠ 0) (hf0 : 0 ≤ f)
    (hfM : f ≤ NimiqodeSpecification.MAX_FACTOR_ERROR_CORRECTION_DATA) :
    Nimiqode.encode P f v = .error .payloadTooLarge ↔
      2 ^ NimiqodeSpecification.HEADER_LENGTH_PAYLOAD_LENGTH * 8 <
        P.length * 8 := by
  have h1 : ¬(v ≠ NimiqodeSpecification.CURRENT_VERSION ∨ P.length = 0) := by
    push_neg
    exact ⟨by rw [hv]; rfl, hP⟩
  have h2 : ¬(f < 0 ∨ NimiqodeSpecification.MAX_FACTOR_ERROR_CORRECTION_DATA < f) := by
    push_neg
    exact ⟨hf0, hfM⟩
  simp only [Nimiqode.encode, Nimiqode.constructFromPayload, if_neg h1, if_neg h2]
  by_cases h3 : 2 ^ NimiqodeSpecification.HEADER_LENGTH_PAYLOAD_LENGTH * 8 <
      P.length * 8
  · rw [if_pos h3]
    simp [h3]
  · rw [if_neg h3]
    simp [h3]

theorem claim_C3_size_gate_amended_witness :
    Nimiqode.encode (List.replicate 4097 0) 0 0 = .error .payloadTooLarge ↔
      2 ^ NimiqodeSpecification.HEADER_LENGTH_PAYLOAD_LENGTH * 8 <
        (List.replicate 4097 (0 : Nat)).length * 8 :=
  claim_C3_size_gate_amended (List.replicate 4097 0) 0 0 rfl
    (by simp only [List.length_replicate]; omega) (by norm_num)
    (by norm_num [NimiqodeSpecification.MAX_FACTOR_ERROR_CORRECTION_DATA])

/-- C4 counterexample: decoding a well-formed single-ring scan succeeds,
so the engine instance built by `_constructFromScan` keeps the single
supplied ring — the decode path performs no minimum-ring check (it stores
the caller's ring set unchecked, source line 73), refuting the claim that
every instance has at least two rings. -/
theorem claim_C4_ring_minimum_cex :
    Nimiqode.decodeScan 1 oneRingScanData = .ok [42] ∧ 1 < 2 :=
  ⟨rfl, by decide⟩

/-- C4 amended: every engine instance constructed by encoding a payload
has a ring set of length at least 2 (the sizing loop never stops below two
rings); an instance constructed from a scan retains whatever ring set the
caller supplied, which can be a single ring. -/
theorem claim_C4_ring_minimum_amended (P : List Nat) (f : ℚ) (v : Nat)
    (r : Nimiqode.EncodeResult) (h : Nimiqode.encode P f v = .ok r) :
    2 ≤ r.ringCount := by
  obtain ⟨hv, hlen, hf0, hfM, hsize, hr⟩ := Nimiqode.encode_ok_inv P f v r h
  subst hv
  subst hr
  exact (Nimiqode.encode_core_spec P f hlen hf0 hfM hsize).1

theorem claim_C4_ring_minimum_amended_witness :
    2 ≤ (Nimiqode.constructFromPayloadCore hexRingBitCount Masking.maskBit
      Masking.findBestMask [7] 0 0).ringCount :=
  claim_C4_ring_minimum_amended [7] 0 0 _
    (Nimiqode.constructFromPayload_ok hexRingBitCount Masking.maskBit
      Masking.findBestMask [7] 0 0 rfl (by decide) (by norm_num)
      (by norm_num [NimiqodeSpecification.MAX_FACTOR_ERROR_CORRECTION_DATA])
      (by norm_num))

/-- C5: every encode call violating the payload/factor/version
preconditions — in particular the empty payload — fails with
`InvalidArgument`, for every ring-capacity function, mask-pattern family
and mask-search heuristic: no ring is created and no bit stream is
allocated before the guards run. -/
theorem claim_C5_invalid_argument (cap : Nat → Nat) (mb : Nat → Nat → Bool)
    (fb : List Bool → Nat) (P : List Nat) (f : ℚ) (v : Nat)
    (h : P = [] ∨ v ≠ 0 ∨ f < 0 ∨
      NimiqodeSpecification.MAX_FACTOR_ERROR_CORRECTION_DATA < f) :
    Nimiqode.constructFromPayload cap mb fb P f v = .error .invalidArgument := by
  by_cases h1 : v ≠ NimiqodeSpecification.CURRENT_VERSION ∨ P.length = 0
  · simp only [Nimiqode.constructFromPayload, if_pos h1]
  · have h2 : f < 0 ∨ NimiqodeSpecification.MAX_FACTOR_ERROR_CORRECTION_DATA < f := by
      push_neg at h1
      rcases h with h | h | h | h
      · exact absurd (by simp [h]) h1.2
      · exact absurd (h1.1.trans rfl) h
      · exact Or.inl h
      · exact Or.inr h
    simp only [Nimiqode.constructFromPayload, if_neg h1, if_pos h2]

theorem claim_C5_invalid_argument_witness :
    Nimiqode.constructFromPayload hexRingBitCount Masking.maskBit
      Masking.findBestMask [] 0 0 = .error .invalidArgument :=
  claim_C5_invalid_argument hexRingBitCount Masking.maskBit
    Masking.findBestMask [] 0 0 (Or.inl rfl)

/-- C6: whenever the header parsed from a scanned ring set carries a
version different from 0, decode fails with `UnsupportedVersion`,
regardless of the remaining header fields and data. -/
theorem claim_C6_version_gate (ringCount : Nat) (data : List Bool)
    (h : (NimiqodeHeader.read
      (data.take (NimiqodeHeader.calculateLength
        (NimiqodeHeader.calculateMaskCount ringCount)))
      (NimiqodeHeader.calculateMaskCount ringCount)).version ≠ 0) :
    Nimiqode.decodeScan ringCount data = .error .unsupportedVersion := by
  simp only [Nimiqode.decodeScan, Nimiqode.constructFromScan]
  rw [if_pos h]

theorem claim_C6_version_gate_witness :
    Nimiqode.decodeScan 1 (NimiqodeHeader.write 1 0 0 0 [0]) =
      .error .unsupportedVersion :=
  claim_C6_version_gate 1 (NimiqodeHeader.write 1 0 0 0 [0]) (by decide)

/-- C7: on decode, once the parsed header's version check passes, a
mismatch between `headerLength + payloadLength + errorCorrectionLength`
and the observed bit-stream length fails with `LengthMismatch`; the result
is the same for every ring-capacity function, mask-pattern family and FEC
decoder, so the failure happens before any unmasking or FEC decoding. -/
theorem claim_C7_length_mismatch (cap : Nat → Nat) (mb : Nat → Nat → Bool)
    (fec : List Bool → Nat → Nat → Option (List Bool)) (ringCount : Nat)
    (data : List Bool)
    (hv : (NimiqodeHeader.read
      (data.take (NimiqodeHeader.calculateLength
        (NimiqodeHeader.calculateMaskCount ringCount)))
      (NimiqodeHeader.calculateMaskCount ringCount)).version = 0)
    (hlen : NimiqodeHeader.calculateLength
        (NimiqodeHeader.calculateMaskCount ringCount) +
      (NimiqodeHeader.read
        (data.take (NimiqodeHeader.calculateLength
          (NimiqodeHeader.calculateMaskCount ringCount)))
        (NimiqodeHeader.calculateMaskCount ringCount)).payloadLength +
      (NimiqodeHeader.read
        (data.take (NimiqodeHeader.calculateLength
          (NimiqodeHeader.calculateMaskCount ringCount)))
        (NimiqodeHeader.calculateMaskCount ringCount)).ecLength ≠
      data.length) :
    Nimiqode.constructFromScan cap mb fec ringCount data =
      .error .lengthMismatch := by
  simp only [Nimiqode.constructFromScan]
  rw [if_neg (by simp [hv]), if_pos hlen]

theorem claim_C7_length_mismatch_witness :
    Nimiqode.constructFromScan hexRingBitCount Masking.maskBit LDPC.decode 1
      (NimiqodeHeader.write 0 5 5 0 [0]) = .error .lengthMismatch :=
  claim_C7_length_mismatch hexRingBitCount Masking.maskBit LDPC.decode 1
    (NimiqodeHeader.write 0 5 5 0 [0]) (by decide) (by decide)

/-- C8: over a trailing window of the payload+parity region whose length
equals the sum of the masked rings' bit capacities (when that sum fits the
region), masking splits the window into consecutive per-ring chunks sized
innermost-first and XOR-transforms chunk `j` with the `j`-th stored mask
identifier, leaving everything before the window untouched; a
caller-supplied mask list (decode) is consumed back-to-front — outermost
ring first — and returned unchanged in innermost-to-outermost storage
order, the encode direction records one identifier per masked ring and
re-feeding its returned identifiers reproduces the exact same
transformation. -/
theorem claim_C8_mask_window (cap : Nat → Nat) (mb : Nat → Nat → Bool)
    (fb : List Bool → Nat) (rc mc : Nat) (ms : List Nat) (d : List Bool)
    (hmc : mc ≤ rc) (hms : ms.length = mc)
    (hW : ((List.range mc).map fun j => cap (rc - mc + j)).sum ≤ d.length) :
    Nimiqode.maskHexagonRings cap mb fb rc mc (some ms) d =
      (ms, d.take (d.length -
          ((List.range mc).map fun j => cap (rc - mc + j)).sum) ++
        Nimiqode.xorChunks mb ((List.range mc).map fun j => cap (rc - mc + j))
          ms (d.drop (d.length -
            ((List.range mc).map fun j => cap (rc - mc + j)).sum))) ∧
    (Nimiqode.maskHexagonRings cap mb fb rc mc none d).1.length = mc ∧
    Nimiqode.maskHexagonRings cap mb fb rc mc
      (some (Nimiqode.maskHexagonRings cap mb fb rc mc none d).1) d =
      Nimiqode.maskHexagonRings cap mb fb rc mc none d :=
  ⟨Nimiqode.maskHexagonRings_char cap mb fb rc mc ms d hmc hms hW,
   Nimiqode.maskHexagonRings_masks_length cap mb fb rc mc none d,
   Nimiqode.maskHexagonRings_refeed cap mb fb rc mc d⟩

theorem claim_C8_mask_window_witness :
    Nimiqode.maskHexagonRings hexRingBitCount Masking.maskBit
        Masking.findBestMask 3 2 (some [1, 2]) (List.replicate 200 false) =
      ([1, 2], (List.replicate 200 false).take ((List.replicate 200 false).length -
          ((List.range 2).map fun j => hexRingBitCount (3 - 2 + j)).sum) ++
        Nimiqode.xorChunks Masking.maskBit
          ((List.range 2).map fun j => hexRingBitCount (3 - 2 + j)) [1, 2]
          ((List.replicate 200 false).drop ((List.replicate 200 false).length -
            ((List.range 2).map fun j => hexRingBitCount (3 - 2 + j)).sum))) ∧
    (Nimiqode.maskHexagonRings hexRingBitCount Masking.maskBit
      Masking.findBestMask 3 2 none (List.replicate 200 false)).1.length = 2 ∧
    Nimiqode.maskHexagonRings hexRingBitCount Masking.maskBit
      Masking.findBestMask 3 2
      (some (Nimiqode.maskHexagonRings hexRingBitCount Masking.maskBit
        Masking.findBestMask 3 2 none (List.replicate 200 false)).1)
      (List.replicate 200 false) =
      Nimiqode.maskHexagonRings hexRingBitCount Masking.maskBit
        Masking.findBestMask 3 2 none (List.replicate 200 false) :=
  claim_C8_mask_window hexRingBitCount Masking.maskBit Masking.findBestMask
    3 2 [1, 2] (List.replicate 200 false) (by omega) (by decide)
    (by simp only [List.length_replicate]; decide)

/-- C9: the decode pipeline unmasks only an independent snapshot copy of
the payload+parity region (the `true` copy flag at source line 87): the
caller's bit-stream buffer after a decode — in every branch, success or
failure — is bit-for-bit the buffer passed in, and the computed result is
exactly that of the decode pipeline. -/
theorem claim_C9_decode_snapshot (ringCount : Nat) (data : List Bool) :
    (Nimiqode.constructFromScanBuffered hexRingBitCount Masking.maskBit
      LDPC.decode true ringCount data).2 = data ∧
    (Nimiqode.constructFromScanBuffered hexRingBitCount Masking.maskBit
      LDPC.decode true ringCount data).1 =
      Nimiqode.decodeScan ringCount data := by
  constructor
  · simp only [Nimiqode.constructFromScanBuffered]
    split
    · rfl
    · split
      · rfl
      · split
        · simp
        · split
          · simp
          · simp
  · simp only [Nimiqode.constructFromScanBuffered, Nimiqode.decodeScan,
      Nimiqode.constructFromScan]
    split
    · rfl
    · split
      · rfl
      · split
        · rfl
        · split
          · rfl
          · rfl

/-- C10: the masking orchestration clamps each masked ring's sub-range
start at zero (`clampStart` is literally `Math.max(0, hexRingEnd -
ring.bitCount)`, equal to truncated subtraction), so even when the
combined capacity of the masked rings exceeds the region, the data keeps
its length (no out-of-bounds range is formed), everything below the
clamped trailing window is untouched, and one mask identifier is still
selected, applied and recorded for every masked ring position — including
positions with truncated or empty sub-ranges. -/
theorem claim_C10_mask_clipping (cap : Nat → Nat) (mb : Nat → Nat → Bool)
    (fb : List Bool → Nat) (rc mc : Nat) (g : Option (List Nat))
    (d : List Bool) :
    (Nimiqode.maskHexagonRings cap mb fb rc mc g d).1.length = mc ∧
    (Nimiqode.maskHexagonRings cap mb fb rc mc g d).2.length = d.length ∧
    (Nimiqode.maskHexagonRings cap mb fb rc mc g d).2.take
        (d.length - min (((List.range mc).map fun i => cap (rc - 1 - i)).sum)
          d.length) =
      d.take (d.length -
        min (((List.range mc).map fun i => cap (rc - 1 - i)).sum) d.length) ∧
    (∀ e c : Nat, Nimiqode.clampStart e c = e - min c e) := by
  refine ⟨Nimiqode.maskHexagonRings_masks_length cap mb fb rc mc g d,
    Nimiqode.maskHexagonRings_data_length cap mb fb rc mc g d, ?_,
    Nimiqode.clampStart_eq⟩
  simp only [Nimiqode.maskHexagonRings]
  exact Nimiqode.maskLoopP_take_front mb fb _ _ d.length d le_rfl
